import Mathlib

/-!
# Verification of the Facebook Messenger archive viewer's ingestion and filter logic

A shallow embedding, in Lean 4, of the message-processing utilities of the
`facebook-conversation-folder-viewer` repository (`messageUtils.ts` and the
search/date-filter components), together with proofs and refutations of the
frozen specification claims.

Modelling conventions:
* JavaScript strings are Lean `String`s (lists of Unicode scalar values);
  `charCodeAt`-based byte extraction is modelled as `Char.toNat % 256`,
  matching `Uint8Array` truncation for BMP characters.
* Files are modelled by their observable content: a raw byte list for the
  chunk reader, and the parse outcome (`Option`) for the message pipeline,
  since `JSON.parse` / thrown exceptions are platform behaviour.
* `Array.prototype.sort` with a consistent numeric comparator is, per the
  ECMAScript specification, a stable sort; a stable sort's output is uniquely
  determined by the input, so it is modelled by `List.insertionSort` (stable,
  inserting earlier elements before later elements of equal key).
* Epoch-millisecond timestamps and `getTime()` values are `Int`.
-/

namespace FBV

/-! ## Decimal numerals

Models the JavaScript number-to-string conversion used in the template
literal `` `${file.name}_${index}` `` for a non-negative integer index. -/

/-- Recursion core for `natDigits`; the fuel argument is an upper bound on
the recursion depth (`n` itself always suffices). -/
def natDigitsGo : Nat → Nat → List Char
  | 0, n => [Nat.digitChar n]
  | fuel + 1, n =>
    if n < 10 then [Nat.digitChar n]
    else natDigitsGo fuel (n / 10) ++ [Nat.digitChar (n % 10)]

/-- The decimal digit characters of `n`, most significant first. -/
def natDigits (n : Nat) : List Char :=
  natDigitsGo n n

theorem natDigitsGo_irrel :
    ∀ {f₁ f₂ n : Nat}, n ≤ f₁ → n ≤ f₂ → natDigitsGo f₁ n = natDigitsGo f₂ n := by
  intro f₁
  induction f₁ with
  | zero =>
    intro f₂ n h₁ h₂
    have hn : n = 0 := by omega
    subst hn
    cases f₂ <;> simp [natDigitsGo]
  | succ f ih =>
    intro f₂ n h₁ h₂
    cases f₂ with
    | zero =>
      have hn : n = 0 := by omega
      subst hn
      simp [natDigitsGo]
    | succ g =>
      by_cases hn : n < 10
      · simp [natDigitsGo, hn]
      · have hdiv : n / 10 < n := Nat.div_lt_self (by omega) (by omega)
        simp only [natDigitsGo, if_neg hn]
        rw [@ih g (n / 10) (by omega) (by omega)]

theorem natDigits_base {n : Nat} (h : n < 10) :
    natDigits n = [Nat.digitChar n] := by
  unfold natDigits
  cases n with
  | zero => rfl
  | succ m => simp [natDigitsGo, h]

theorem natDigits_rec {n : Nat} (h : ¬ n < 10) :
    natDigits n = natDigits (n / 10) ++ [Nat.digitChar (n % 10)] := by
  unfold natDigits
  cases n with
  | zero => omega
  | succ m =>
    have hdiv : (m + 1) / 10 < m + 1 := Nat.div_lt_self (by omega) (by omega)
    simp only [natDigitsGo, if_neg h]
    rw [natDigitsGo_irrel (by omega) (le_refl ((m + 1) / 10))]

/-- Decimal string of a natural number (model of JS number stringification). -/
def natToString (n : Nat) : String :=
  ⟨natDigits n⟩

/-- Numeric value of a digit character. -/
def digitVal (c : Char) : Nat := c.toNat - 48

/-- Value of a decimal digit string, most significant first
(also the model of `Number.parseInt` on a digit string). -/
def digitsToNat (ds : List Char) : Nat :=
  ds.foldl (fun a c => 10 * a + digitVal c) 0

theorem digitVal_digitChar {n : Nat} (h : n < 10) :
    digitVal (Nat.digitChar n) = n := by
  interval_cases n <;> rfl

theorem isDigit_digitChar {n : Nat} (h : n < 10) :
    (Nat.digitChar n).isDigit = true := by
  interval_cases n <;> rfl

theorem digitsToNat_append_singleton (ds : List Char) (c : Char) :
    digitsToNat (ds ++ [c]) = 10 * digitsToNat ds + digitVal c := by
  simp [digitsToNat, List.foldl_append]

theorem digitsToNat_natDigits (n : Nat) : digitsToNat (natDigits n) = n := by
  induction n using Nat.strong_induction_on with
  | _ n ih =>
    by_cases h : n < 10
    · rw [natDigits_base h]
      simp [digitsToNat, digitVal_digitChar h]
    · rw [natDigits_rec h, digitsToNat_append_singleton,
        ih (n / 10) (Nat.div_lt_self (by omega) (by omega)),
        digitVal_digitChar (Nat.mod_lt n (by omega))]
      omega

theorem natDigits_injective {m n : Nat} (h : natDigits m = natDigits n) :
    m = n := by
  have := congrArg digitsToNat h
  rwa [digitsToNat_natDigits, digitsToNat_natDigits] at this

theorem isDigit_of_mem_natDigits {n : Nat} {c : Char}
    (hc : c ∈ natDigits n) : c.isDigit = true := by
  induction n using Nat.strong_induction_on with
  | _ n ih =>
    by_cases h : n < 10
    · rw [natDigits_base h, List.mem_singleton] at hc
      exact hc ▸ isDigit_digitChar h
    · rw [natDigits_rec h, List.mem_append, List.mem_singleton] at hc
      rcases hc with hc | hc
      · exact ih (n / 10) (Nat.div_lt_self (by omega) (by omega)) hc
      · exact hc ▸ isDigit_digitChar (Nat.mod_lt n (by omega))

/-! ## Models of JavaScript string primitives

The Lean core `String` functions for lowercasing, trimming and splitting are
byte-position based and do not reduce in the kernel, so the JS primitives
`toLowerCase`, `trim`, `split` and `includes` are modelled here directly on
the character lists underlying the strings. -/

/-- Model of `String.prototype.toLowerCase` (ASCII case mapping). -/
def jsToLower (s : String) : String :=
  ⟨s.data.map Char.toLower⟩

/-- Model of `String.prototype.trim`. -/
def jsTrim (s : String) : String :=
  ⟨((s.data.dropWhile Char.isWhitespace).reverse.dropWhile
      Char.isWhitespace).reverse⟩

/-- `q` occurs in `t` starting at position `i`. -/
def segMatchAt (q t : List Char) (i : Nat) : Bool :=
  (t.drop i).take q.length == q

/-- Model of `String.prototype.includes`: `needle` occurs somewhere in
`haystack` as a contiguous segment. -/
def jsIncludes (needle haystack : String) : Bool :=
  (List.range (haystack.data.length + 1)).any
    (segMatchAt needle.data haystack.data)

/-- Split a character list at every occurrence of the separator character. -/
def splitChar (sep : Char) : List Char → List (List Char)
  | [] => [[]]
  | c :: cs =>
    match splitChar sep cs with
    | [] => [[]]
    | g :: gs => if c = sep then [] :: g :: gs else (c :: g) :: gs

/-- Model of `String.prototype.split` with a single-character separator. -/
def jsSplit (sep : Char) (s : String) : List String :=
  (splitChar sep s.data).map fun l => ⟨l⟩

/-! ## The trailing digit run of a string

Used to show that the enriched-message identifier
`` `${file.name}_${index}` `` determines both the file name and the index. -/

theorem takeWhile_append_of_all {α : Type} {p : α → Bool} {a : List α}
    (b : List α) (h : ∀ x ∈ a, p x = true) :
    (a ++ b).takeWhile p = a ++ b.takeWhile p := by
  induction a with
  | nil => simp
  | cons x xs ih =>
    have hx : p x = true := h x (List.mem_cons_self x xs)
    simp only [List.cons_append, List.takeWhile_cons, hx, if_true]
    rw [ih (fun y hy => h y (List.mem_cons_of_mem x hy))]

/-- The maximal run of digit characters at the end of a list. -/
def trailingDigits (l : List Char) : List Char :=
  (l.reverse.takeWhile Char.isDigit).reverse

theorem trailingDigits_append {xs ds : List Char}
    (hds : ∀ c ∈ ds, c.isDigit = true) :
    trailingDigits (xs ++ '_' :: ds) = ds := by
  unfold trailingDigits
  rw [List.reverse_append, List.reverse_cons, List.append_assoc,
    List.singleton_append,
    takeWhile_append_of_all _ (fun c hc => hds c (List.mem_reverse.mp hc)),
    List.takeWhile_cons]
  simp

/-- The synthetic identifier of an enriched message, as built by the source:
`` `${file.name}_${index}` ``. -/
def mkId (name : String) (index : Nat) : String :=
  name ++ "_" ++ natToString index

/-- An identifier determines both the source-file name and the in-file index:
the index numeral is the maximal trailing digit run (it is preceded by the
non-digit `'_'`), and the name is what remains. -/
theorem mkId_inj {n₁ n₂ : String} {k₁ k₂ : Nat}
    (h : mkId n₁ k₁ = mkId n₂ k₂) : n₁ = n₂ ∧ k₁ = k₂ := by
  have hd : n₁.data ++ '_' :: natDigits k₁ = n₂.data ++ '_' :: natDigits k₂ := by
    have h' := congrArg String.data h
    simpa [mkId, String.data_append, natToString, List.append_assoc] using h'
  have h₁ : trailingDigits (n₁.data ++ '_' :: natDigits k₁) = natDigits k₁ :=
    trailingDigits_append (fun c hc => isDigit_of_mem_natDigits hc)
  have h₂ : trailingDigits (n₂.data ++ '_' :: natDigits k₂) = natDigits k₂ :=
    trailingDigits_append (fun c hc => isDigit_of_mem_natDigits hc)
  rw [hd, h₂] at h₁
  have hk : k₂ = k₁ := natDigits_injective h₁
  subst hk
  have hlen : n₁.data.length = n₂.data.length := by
    have := congrArg List.length hd
    simp only [List.length_append, List.length_cons] at this
    omega
  have hn : n₁.data = n₂.data := List.append_inj_left hd hlen
  exact ⟨String.ext hn, rfl⟩

/-! ## Stable sorting by an integer key

`Array.prototype.sort` with the comparators `(a, b) => numA - numB` and
`(a, b) => a.timestamp_ms - b.timestamp_ms` is, per the ECMAScript
specification, a stable non-decreasing sort by the corresponding numeric
key.  Since a stable sort's output is uniquely determined by its input, it
is modelled by `List.insertionSort`, which inserts earlier elements before
later elements of equal key. -/

section StableSort

variable {α : Type} (key : α → Int)

/-- The comparator order: non-decreasing in `key`. -/
def keyLe (a b : α) : Prop := key a ≤ key b

instance : DecidableRel (keyLe key) := fun _ _ => Int.decLe _ _

instance : IsTotal α (keyLe key) := ⟨fun a b => Int.le_total (key a) (key b)⟩

instance : IsTrans α (keyLe key) := ⟨fun _ _ _ h₁ h₂ => le_trans h₁ h₂⟩

/-- Stable sort by `key`, the model of `Array.prototype.sort` with a
`key a - key b` comparator. -/
def sortByKey (l : List α) : List α := l.insertionSort (keyLe key)

theorem sortByKey_sorted (l : List α) :
    List.Sorted (keyLe key) (sortByKey key l) :=
  List.sorted_insertionSort _ l

theorem sortByKey_perm (l : List α) : List.Perm (sortByKey key l) l :=
  List.perm_insertionSort _ l

theorem filter_orderedInsert_of_neg {p : α → Bool} {x : α} (l : List α)
    (hx : p x = false) :
    (List.orderedInsert (keyLe key) x l).filter p = l.filter p := by
  induction l with
  | nil => simp [List.orderedInsert, hx]
  | cons b l ih =>
    by_cases hr : keyLe key x b
    · simp [List.orderedInsert, hr, List.filter_cons, hx]
    · simp only [List.orderedInsert, if_neg hr, List.filter_cons]
      cases hpb : p b <;> simp [ih]

theorem orderedInsert_of_le_all {x : α} {l : List α}
    (h : ∀ z ∈ l, keyLe key x z) :
    List.orderedInsert (keyLe key) x l = x :: l := by
  cases l with
  | nil => rfl
  | cons b l => simp [List.orderedInsert, h b (List.mem_cons_self b l)]

theorem filter_orderedInsert_of_pos {p : α → Bool} {x : α} {l : List α}
    (hx : p x = true) (hs : List.Sorted (keyLe key) l) :
    (List.orderedInsert (keyLe key) x l).filter p =
      List.orderedInsert (keyLe key) x (l.filter p) := by
  induction l with
  | nil => simp [List.orderedInsert, hx]
  | cons b l ih =>
    rw [List.sorted_cons] at hs
    obtain ⟨hb, hs'⟩ := hs
    by_cases hr : keyLe key x b
    · rw [List.orderedInsert, if_pos hr, orderedInsert_of_le_all key ?_]
      · simp [List.filter_cons, hx]
      · intro z hz
        rcases List.mem_cons.mp (List.mem_of_mem_filter hz) with hz' | hz'
        · exact hz' ▸ hr
        · exact Trans.trans hr (hb z hz')
    · rw [List.orderedInsert, if_neg hr]
      cases hpb : p b
      · simp [List.filter_cons, hpb, ih hs']
      · simp [List.filter_cons, hpb, ih hs', List.orderedInsert, if_neg hr]

/-- Filtering commutes with the stable sort. -/
theorem filter_sortByKey (p : α → Bool) (l : List α) :
    (sortByKey key l).filter p = sortByKey key (l.filter p) := by
  induction l with
  | nil => rfl
  | cons x l ih =>
    show (List.orderedInsert (keyLe key) x (sortByKey key l)).filter p = _
    cases hpx : p x
    · rw [filter_orderedInsert_of_neg key _ hpx, ih, List.filter_cons, hpx]
      rfl
    · rw [filter_orderedInsert_of_pos key hpx (sortByKey_sorted key l), ih,
        List.filter_cons, hpx]
      rfl

theorem filter_key_orderedInsert {t : Int} {x : α} (l : List α)
    (hx : key x = t) :
    (List.orderedInsert (keyLe key) x l).filter (fun z => key z == t) =
      x :: l.filter (fun z => key z == t) := by
  induction l with
  | nil => simp [List.orderedInsert, hx]
  | cons b l ih =>
    by_cases hr : keyLe key x b
    · simp [List.orderedInsert, hr, List.filter_cons, hx]
    · have hb : (key b == t) = false := by
        have : ¬ key x ≤ key b := hr
        simp only [beq_eq_false_iff_ne, ne_eq]
        omega
      rw [List.orderedInsert, if_neg hr, List.filter_cons, hb]
      simpa [List.filter_cons, hb] using ih

/-- Stability of the sort: the elements whose key equals any fixed value `t`
appear in the sorted output exactly as they appear in the input. -/
theorem filter_key_sortByKey (t : Int) (l : List α) :
    (sortByKey key l).filter (fun z => key z == t) =
      l.filter (fun z => key z == t) := by
  induction l with
  | nil => rfl
  | cons x l ih =>
    show (List.orderedInsert (keyLe key) x (sortByKey key l)).filter _ = _
    by_cases hx : key x = t
    · rw [filter_key_orderedInsert key _ hx, ih, List.filter_cons]
      simp [hx]
    · rw [filter_orderedInsert_of_neg key _ (by simpa using hx), ih,
        List.filter_cons]
      simp [hx]

end StableSort

/-! ## UTF-8 decoding (models of `TextDecoder`)

`fixEncoding` builds a byte array from the string's character codes and
decodes it with `new TextDecoder("utf-8", { fatal: true })`; the chunk
reader's `Blob.text()` decodes each chunk with the non-fatal decoder, which
substitutes U+FFFD for invalid sequences. -/

/-- A UTF-8 continuation byte. -/
def contByte (b : Nat) : Bool := 0x80 ≤ b && b ≤ 0xBF

/-- Valid range of the second byte given the lead byte (the lead-specific
ranges exclude overlong encodings, surrogates, and values above U+10FFFF). -/
def sndByteOk (lead b₂ : Nat) : Bool :=
  if lead = 0xE0 then 0xA0 ≤ b₂ && b₂ ≤ 0xBF
  else if lead = 0xED then 0x80 ≤ b₂ && b₂ ≤ 0x9F
  else if lead = 0xF0 then 0x90 ≤ b₂ && b₂ ≤ 0xBF
  else if lead = 0xF4 then 0x80 ≤ b₂ && b₂ ≤ 0x8F
  else contByte b₂

/-- Code point of a two-byte sequence. -/
def cp2 (b₁ b₂ : Nat) : Nat := (b₁ - 0xC0) * 0x40 + (b₂ - 0x80)

/-- Code point of a three-byte sequence. -/
def cp3 (b₁ b₂ b₃ : Nat) : Nat :=
  (b₁ - 0xE0) * 0x1000 + (b₂ - 0x80) * 0x40 + (b₃ - 0x80)

/-- Code point of a four-byte sequence. -/
def cp4 (b₁ b₂ b₃ b₄ : Nat) : Nat :=
  (b₁ - 0xF0) * 0x40000 + (b₂ - 0x80) * 0x1000 + (b₃ - 0x80) * 0x40 + (b₄ - 0x80)

/-- The replacement character U+FFFD. -/
def replChar : Char := Char.ofNat 0xFFFD

/-- One decoding step of the lossy decoder for a non-ASCII lead byte `b`
followed by `bs`: the emitted character (the decoded scalar, or U+FFFD for a
maximal invalid subpart) and how many bytes beyond `b` were consumed. -/
def utf8StepSlow (b : Nat) (bs : List Nat) : Char × Nat :=
  if 0xC2 ≤ b && b ≤ 0xDF then
    match bs with
    | b₂ :: _ => if contByte b₂ then (Char.ofNat (cp2 b b₂), 1) else (replChar, 0)
    | [] => (replChar, 0)
  else if 0xE0 ≤ b && b ≤ 0xEF then
    match bs with
    | b₂ :: b₃ :: _ =>
      if sndByteOk b b₂ then
        if contByte b₃ then (Char.ofNat (cp3 b b₂ b₃), 2) else (replChar, 1)
      else (replChar, 0)
    | [b₂] => if sndByteOk b b₂ then (replChar, 1) else (replChar, 0)
    | [] => (replChar, 0)
  else if 0xF0 ≤ b && b ≤ 0xF4 then
    match bs with
    | b₂ :: b₃ :: b₄ :: _ =>
      if sndByteOk b b₂ then
        if contByte b₃ then
          if contByte b₄ then (Char.ofNat (cp4 b b₂ b₃ b₄), 3)
          else (replChar, 2)
        else (replChar, 1)
      else (replChar, 0)
    | [b₂, b₃] =>
      if sndByteOk b b₂ then
        if contByte b₃ then (replChar, 2) else (replChar, 1)
      else (replChar, 0)
    | [b₂] => if sndByteOk b b₂ then (replChar, 1) else (replChar, 0)
    | [] => (replChar, 0)
  else (replChar, 0)

/-- One decoding step of the lossy decoder: emitted character and number of
bytes consumed beyond the lead byte. -/
def utf8Step (b : Nat) (bs : List Nat) : Char × Nat :=
  if b ≤ 0x7F then (Char.ofNat b, 0) else utf8StepSlow b bs

/-- Recursion core of the lossy decoder; the fuel argument is an upper bound
on the number of steps (each step consumes at least the lead byte, so
`l.length` fuel always suffices). -/
def utf8DecodeReplGo : Nat → List Nat → List Char
  | _, [] => []
  | 0, _ :: _ => []
  | fuel + 1, b :: bs =>
    (utf8Step b bs).1 :: utf8DecodeReplGo fuel (bs.drop (utf8Step b bs).2)

/-- Lossy UTF-8 decoding: model of `Blob.text()` / the non-fatal
`TextDecoder`, substituting U+FFFD for invalid subparts. -/
def utf8DecodeRepl (l : List Nat) : List Char :=
  utf8DecodeReplGo l.length l

/-- One decoding step of the strict decoder for a non-ASCII lead byte:
`none` on any invalid sequence. -/
def utf8StepStrictSlow (b : Nat) (bs : List Nat) : Option (Char × Nat) :=
  if 0xC2 ≤ b && b ≤ 0xDF then
    match bs with
    | b₂ :: _ => if contByte b₂ then some (Char.ofNat (cp2 b b₂), 1) else none
    | [] => none
  else if 0xE0 ≤ b && b ≤ 0xEF then
    match bs with
    | b₂ :: b₃ :: _ =>
      if sndByteOk b b₂ && contByte b₃ then some (Char.ofNat (cp3 b b₂ b₃), 2)
      else none
    | _ => none
  else if 0xF0 ≤ b && b ≤ 0xF4 then
    match bs with
    | b₂ :: b₃ :: b₄ :: _ =>
      if sndByteOk b b₂ && contByte b₃ && contByte b₄ then
        some (Char.ofNat (cp4 b b₂ b₃ b₄), 3)
      else none
    | _ => none
  else none

/-- One decoding step of the strict decoder. -/
def utf8StepStrict (b : Nat) (bs : List Nat) : Option (Char × Nat) :=
  if b ≤ 0x7F then some (Char.ofNat b, 0) else utf8StepStrictSlow b bs

/-- Recursion core of the strict decoder (fuel as in `utf8DecodeReplGo`). -/
def utf8DecodeStrictGo : Nat → List Nat → Option (List Char)
  | _, [] => some []
  | 0, _ :: _ => none
  | fuel + 1, b :: bs =>
    match utf8StepStrict b bs with
    | none => none
    | some (c, k) => (utf8DecodeStrictGo fuel (bs.drop k)).map (c :: ·)

/-- Strict UTF-8 decoding: model of
`new TextDecoder("utf-8", { fatal: true }).decode`, failing on any invalid
byte sequence. -/
def utf8DecodeStrict (l : List Nat) : Option (List Char) :=
  utf8DecodeStrictGo l.length l

/-- Model of `fixEncoding`: reinterpret each character code as a raw byte
(`Uint8Array` assignment truncates modulo 256), decode strictly as UTF-8,
and fall back to the original string when decoding fails. -/
def fixEncoding (s : String) : String :=
  match utf8DecodeStrict (s.data.map (fun c => c.toNat % 256)) with
  | some cs => ⟨cs⟩
  | none => s

/-! ## The chunk reader (`readJsonInChunks`)

A file is modelled by its raw byte sequence.  `file.slice(offset, end)`
clamps to the file length, and each chunk is decoded independently by
`Blob.text()`.  `JSON.parse` is a platform primitive; the reader is generic
in the parse function exactly as the source is generic in `T`. -/

structure ByteFile where
  bytes : List Nat

/-- Model of `file.slice(off, off + len)` on the byte sequence. -/
def fileSlice (l : List Nat) (off len : Nat) : List Nat :=
  (l.drop off).take len

/-- Number of iterations of `for (let offset = 0; offset < size; offset += chunkSize)`. -/
def numChunks (size chunkSize : Nat) : Nat :=
  (size + chunkSize - 1) / chunkSize

/-- The text accumulated by the chunk loop: each chunk decoded independently,
concatenated in order. -/
def chunkedText (bytes : List Nat) (chunkSize : Nat) : List Char :=
  ((List.range (numChunks bytes.length chunkSize)).map
    (fun i => utf8DecodeRepl (fileSlice bytes (i * chunkSize) chunkSize))).flatten

/-- Model of `readJsonInChunks`: read all chunks, concatenate, parse once. -/
def readJsonInChunks {T : Type} (parse : List Char → Option T)
    (file : ByteFile) (chunkSize : Nat) : Option T :=
  parse (chunkedText file.bytes chunkSize)

/-- Reading and parsing the whole file in a single read. -/
def readJsonSingle {T : Type} (parse : List Char → Option T)
    (file : ByteFile) : Option T :=
  parse (utf8DecodeRepl file.bytes)

theorem utf8Step_ascii {b : Nat} (bs : List Nat) (hb : b ≤ 0x7F) :
    utf8Step b bs = (Char.ofNat b, 0) := by
  unfold utf8Step
  rw [if_pos hb]

theorem utf8DecodeRepl_cons_ascii {b : Nat} (bs : List Nat) (hb : b ≤ 0x7F) :
    utf8DecodeRepl (b :: bs) = Char.ofNat b :: utf8DecodeRepl bs := by
  show utf8DecodeReplGo (bs.length + 1) (b :: bs) = _
  rw [utf8DecodeReplGo, utf8Step_ascii bs hb]
  rfl

theorem utf8DecodeRepl_ascii {l : List Nat} (h : ∀ b ∈ l, b ≤ 0x7F) :
    utf8DecodeRepl l = l.map Char.ofNat := by
  induction l with
  | nil => rfl
  | cons b bs ih =>
    rw [utf8DecodeRepl_cons_ascii bs (h b (List.mem_cons_self b bs)),
      ih (fun x hx => h x (List.mem_cons_of_mem b hx))]
    rfl

theorem numChunks_zero {cs : Nat} (hcs : 0 < cs) : numChunks 0 cs = 0 := by
  unfold numChunks
  exact Nat.div_eq_of_lt (by omega)

theorem numChunks_succ {n cs : Nat} (hn : 0 < n) (hcs : 0 < cs) :
    numChunks n cs = numChunks (n - cs) cs + 1 := by
  unfold numChunks
  by_cases h : n ≤ cs
  · have h₁ : n - cs = 0 := by omega
    have h₂ : (n + cs - 1) / cs = 1 := Nat.div_eq_of_lt_le (by omega) (by omega)
    rw [h₁, h₂, Nat.div_eq_of_lt (by omega)]
  · have h₂ : n + cs - 1 = (n - cs + cs - 1) + cs := by omega
    rw [h₂, Nat.add_div_right _ hcs]

theorem chunkSlices_flatten_aux {cs : Nat} (hcs : 0 < cs) :
    ∀ n (l : List Nat), l.length = n →
      ((List.range (numChunks l.length cs)).map
        (fun i => fileSlice l (i * cs) cs)).flatten = l := by
  intro n
  induction n using Nat.strong_induction_on with
  | _ n ih =>
    intro l hl
    by_cases hnil : l = []
    · subst hnil
      simp [numChunks_zero hcs]
    · have hlen : 0 < l.length := List.length_pos.mpr hnil
      have htail :
          ((List.range (numChunks (l.length - cs) cs)).map
            (fun i => fileSlice (l.drop cs) (i * cs) cs)).flatten = l.drop cs := by
        have hdl : (l.drop cs).length = l.length - cs := List.length_drop cs l
        have hlt : (l.drop cs).length < n := by omega
        have := ih (l.drop cs).length hlt (l.drop cs) rfl
        rwa [hdl] at this
      rw [numChunks_succ hlen hcs, List.range_succ_eq_map, List.map_cons,
        List.flatten_cons, List.map_map]
      have hmap : List.map ((fun i => fileSlice l (i * cs) cs) ∘ Nat.succ)
            (List.range (numChunks (l.length - cs) cs)) =
          List.map (fun i => fileSlice (l.drop cs) (i * cs) cs)
            (List.range (numChunks (l.length - cs) cs)) := by
        apply List.map_congr_left
        intro i _
        simp only [Function.comp_apply, fileSlice, List.drop_drop]
        rw [Nat.succ_mul, Nat.add_comm (i * cs) cs]
      rw [hmap, htail]
      simp only [fileSlice, Nat.zero_mul, List.drop_zero]
      exact List.take_append_drop cs l

theorem chunkedText_ascii {l : List Nat} {cs : Nat} (hcs : 0 < cs)
    (h : ∀ b ∈ l, b ≤ 0x7F) :
    chunkedText l cs = utf8DecodeRepl l := by
  unfold chunkedText
  have hslice : ∀ i, utf8DecodeRepl (fileSlice l (i * cs) cs) =
      (fileSlice l (i * cs) cs).map Char.ofNat := by
    intro i
    exact utf8DecodeRepl_ascii
      (fun b hb => h b (List.mem_of_mem_drop (List.mem_of_mem_take hb)))
  calc ((List.range (numChunks l.length cs)).map
          (fun i => utf8DecodeRepl (fileSlice l (i * cs) cs))).flatten
      = ((List.range (numChunks l.length cs)).map
          (fun i => (fileSlice l (i * cs) cs).map Char.ofNat)).flatten := by
        congr 1
        exact List.map_congr_left (fun i _ => hslice i)
    _ = (List.map Char.ofNat
          ((List.range (numChunks l.length cs)).map
            (fun i => fileSlice l (i * cs) cs)).flatten) := by
        rw [List.map_flatten, List.map_map]
        rfl
    _ = List.map Char.ofNat l := by
        rw [chunkSlices_flatten_aux hcs l.length l rfl]
    _ = utf8DecodeRepl l := (utf8DecodeRepl_ascii h).symm

/-! ## The message data model

`Message` keeps the fields the claims are about: the synthetic identifier,
the sender name, the timestamp and the optional text content.  The optional
attachment/reaction/share payloads are carried through enrichment unchanged
up to the same encoding repair, and the locale-formatted display strings are
produced by `toLocaleDateString`/`toLocaleTimeString`; none of these fields
is mentioned by any claim, so they are omitted from the embedding. -/

/-- A raw message as it appears in a parsed `message_*.json` file. -/
structure RawMsg where
  sender_name : String
  timestamp_ms : Int
  content : Option String
deriving DecidableEq

/-- An enriched message (element of the aggregated collection). -/
structure Message where
  id : String
  sender_name : String
  timestamp_ms : Int
  content : Option String
deriving DecidableEq

/-- The parse result of one message file: the `messages` field, which is
`none` when the parsed object has no `messages` array
(`!data.messages || !Array.isArray(data.messages)`). -/
structure ParsedFile where
  messages : Option (List RawMsg)
deriving DecidableEq

/-- A message file as seen by `processMessageFiles`: its name, and the
outcome of `readJsonInChunks` on it (`none` models a thrown parse error). -/
structure MFile where
  name : String
  parsed : Option ParsedFile
deriving DecidableEq

/-- Model of the test `/message_\d+\.json$/.test(name)`: the name ends with
`"message_"`, a non-empty digit run, then `".json"`.  (Because `'_'` is not
a digit, a match of `\d+` may always be extended to the maximal digit run
preceding `".json"`, so testing the maximal run is equivalent to the
regex's existential semantics.) -/
def isMessageFileName (s : String) : Bool :=
  let r := s.data.reverse
  (r.take 5 == ['n', 'o', 's', 'j', '.']) &&
    (let r₂ := r.drop 5
     let ds := r₂.takeWhile Char.isDigit
     !ds.isEmpty &&
       (r₂.drop ds.length).take 8 == ['_', 'e', 'g', 'a', 's', 's', 'e', 'm'])

/-- The first maximal digit run of a character list
(model of `name.match(/\d+/)?.[0]`, with `[]` for a failed match). -/
def firstDigitRun : List Char → List Char
  | [] => []
  | c :: cs =>
    if c.isDigit then c :: cs.takeWhile Char.isDigit else firstDigitRun cs

/-- The numeric sort key of a message file:
`Number.parseInt(a.name.match(/\d+/)?.[0] || "0", 10)`.  Note this is the
value of the FIRST digit run in the name, and `digitsToNat [] = 0` models
`parseInt("0")` for the no-match case. -/
def fileNum (f : MFile) : Nat :=
  digitsToNat (firstDigitRun f.name.data)

/-- Step 1 of `processMessageFiles`: stable sort of the message files by
their numeric key. -/
def sortFilesByNum (files : List MFile) : List MFile :=
  sortByKey (fun f => (fileNum f : Int)) files

/-- Enrichment of one raw message (`data.messages.map((msg, index) => ...)`
body): synthetic id, encoding repair of the text fields.  JS note: in
`msg.content ? fixEncoding(msg.content) : undefined` an empty string is
falsy, so empty content becomes `undefined`. -/
def enrichOne (name : String) (index : Nat) (m : RawMsg) : Message :=
  { id := mkId name index
    sender_name := fixEncoding m.sender_name
    timestamp_ms := m.timestamp_ms
    content :=
      match m.content with
      | some c => if c = "" then none else some (fixEncoding c)
      | none => none }

/-- `messages.map((msg, index) => enrich)` starting at a given index. -/
def enrichFrom (name : String) (index : Nat) : List RawMsg → List Message
  | [] => []
  | m :: ms => enrichOne name index m :: enrichFrom name (index + 1) ms

/-- The enriched messages contributed by one file: a file whose read/parse
threw (`catch`) or whose payload has no `messages` array (`continue`) is
skipped and contributes nothing; otherwise its `messages` array is enriched
in order. -/
def fileMessages (f : MFile) : List Message :=
  match f.parsed.bind (·.messages) with
  | none => []
  | some msgs => enrichFrom f.name 0 msgs

/-- The per-file loop of `processMessageFiles`: each file's enriched
messages pushed onto the accumulator in file order. -/
def collectMessages : List MFile → List Message
  | [] => []
  | f :: fs => fileMessages f ++ collectMessages fs

/-- Step 5 of `processMessageFiles`:
`allMessages.sort((a, b) => a.timestamp_ms - b.timestamp_ms)`. -/
def sortByTimestamp (l : List Message) : List Message :=
  sortByKey (fun m => m.timestamp_ms) l

/-- Model of `processMessageFiles`: filter the message files by name, sort
them by numeric key, read/parse/enrich each (skipping failures), concatenate
and sort chronologically. -/
def processMessageFiles (files : List MFile) : List Message :=
  sortByTimestamp (collectMessages (sortFilesByNum
    (files.filter (fun f => isMessageFileName f.name))))

/-- A file whose read and parse succeed and whose payload has a `messages`
array. -/
def goodFile (f : MFile) : Bool :=
  (f.parsed.bind (·.messages)).isSome

/-! ## The search/filter engine (`SearchBar`) and date filter -/

/-- The text-match predicate of the search filter:
`msg.content?.toLowerCase().includes(term) ||
 msg.sender_name.toLowerCase().includes(term)`
(`term` is the already-lowercased search term). -/
def msgMatchesTerm (term : String) (m : Message) : Bool :=
  (m.content.map (fun c => jsIncludes term (jsToLower c))).getD false ||
    jsIncludes term (jsToLower m.sender_name)

/-- The search-filter stage: applied only when `searchTerm.trim()` is
truthy, and matching against `searchTerm.toLowerCase()` (untrimmed). -/
def textFilter (messages : List Message) (searchTerm : String) : List Message :=
  if jsTrim searchTerm = "" then messages
  else messages.filter (msgMatchesTerm (jsToLower searchTerm))

/-- Milliseconds per day, the literal `86400000`. -/
def msPerDay : Int := 86400000

/-- A calendar date is modelled by its epoch-day number `d`;
`new Date("YYYY-MM-DD").getTime()` is UTC midnight of that day. -/
def dayStartMs (d : Int) : Int := d * msPerDay

/-- `new Date(endDate).getTime() + 86400000 - 1` — the last millisecond of
day `d`. -/
def dayEndMs (d : Int) : Int := dayStartMs d + msPerDay - 1

/-- The date-range stage of the filter, exactly as in `SearchBar` and
`DateFilters`: an empty/absent bound (`none`) applies no constraint. -/
def dateFilter (messages : List Message) (startDay endDay : Option Int) :
    List Message :=
  let afterStart :=
    match startDay with
    | none => messages
    | some d => messages.filter (fun m => decide (dayStartMs d ≤ m.timestamp_ms))
  match endDay with
  | none => afterStart
  | some d => afterStart.filter (fun m => decide (m.timestamp_ms ≤ dayEndMs d))

/-- The `filteredMessages` memo of `SearchBar`: search filter, then date
range; this full list is what `onFilterChange` hands to the renderer. -/
def filteredMessages (messages : List Message) (searchTerm : String)
    (startDay endDay : Option Int) : List Message :=
  dateFilter (textFilter messages searchTerm) startDay endDay

/-- The `searchResults` memo of `SearchBar`:
empty for a blank search term, otherwise `filteredMessages.slice(0, 50)`. -/
def searchResults (messages : List Message) (searchTerm : String)
    (startDay endDay : Option Int) : List Message :=
  if jsTrim searchTerm = "" then []
  else (filteredMessages messages searchTerm startDay endDay).take 50

/-- Membership of a timestamp in the configured date range. -/
def inDateRange (startDay endDay : Option Int) (m : Message) : Bool :=
  startDay.all (fun d => decide (dayStartMs d ≤ m.timestamp_ms)) &&
    endDay.all (fun d => decide (m.timestamp_ms ≤ dayEndMs d))

/-- The text constraint actually enforced by `filteredMessages`: none for a
blank term, otherwise the substring match against the lowercased term. -/
def matchesQuery (searchTerm : String) (m : Message) : Bool :=
  if jsTrim searchTerm = "" then true
  else msgMatchesTerm (jsToLower searchTerm) m

/-! ## Whole-word matching

Modelled from the spec: the repository's README documents a whole-word
toggle ("use whole-word toggle for exact matches"), but its implementation
is absent from the provided `SearchBar` source, which only performs
substring matching.  Per the spec, whole-word matching requires the
(lowercased, literally-taken) query to occur at a position bounded on both
sides by a word boundary; escaping of regex metacharacters means the query
is matched literally, which is how matching is modelled here. -/

/-- A word character in the sense of the regex `\b` boundary
(`[A-Za-z0-9_]`). -/
def isWordChar (c : Char) : Bool := c.isAlphanum || c == '_'

/-- Modelled from the spec: the query occurs at position `i` of the text
with word boundaries on both sides. -/
def wholeWordAt (q t : List Char) (i : Nat) : Bool :=
  segMatchAt q t i &&
    (i == 0 || !isWordChar (t.getD (i - 1) ' ')) &&
    (i + q.length == t.length || !isWordChar (t.getD (i + q.length) ' '))

/-- Modelled from the spec: word-boundary-bounded occurrence somewhere in
the text. -/
def wholeWordContains (q t : List Char) : Bool :=
  (List.range (t.length + 1)).any (wholeWordAt q t)

/-- Modelled from the spec: the whole-word variant of the message text
match (content or sender name, case-insensitive, query taken literally). -/
def msgMatchesWholeWord (searchTerm : String) (m : Message) : Bool :=
  (m.content.map
      (fun c => wholeWordContains (jsToLower searchTerm).data (jsToLower c).data)).getD
      false ||
    wholeWordContains (jsToLower searchTerm).data (jsToLower m.sender_name).data

/-! ## The folder validator -/

/-- A selected file as the validator sees it: base name and the path
relative to the selected root. -/
structure VFile where
  name : String
  webkitRelativePath : String
deriving DecidableEq

/-- The three failure conditions of `validateFolder`, in source order. -/
inductive FolderError where
  | noMessageFiles
  | noMediaFolders
  | noChatFolder
deriving DecidableEq

/-- The success result of `validateFolder`. -/
structure FolderValidation where
  chatFolder : String
  validFiles : List VFile
deriving DecidableEq

/-- The five recognized media directory names. -/
def mediaFolderNames : List String := ["audio", "files", "gifs", "photos", "videos"]

/-- The file's immediate parent directory is a media folder:
`pathParts.length > 1 && [...].includes(pathParts[pathParts.length - 2])`. -/
def hasMediaParent (f : VFile) : Bool :=
  let pathParts := jsSplit '/' f.webkitRelativePath
  decide (1 < pathParts.length) &&
    mediaFolderNames.contains (pathParts.getD (pathParts.length - 2) "")

/-- `pathParts[pathParts.length - 2]` of the file's relative path; for a
path without `/` this index is out of range and the JS value is `undefined`,
which (like an empty part) is falsy — both are modelled by `""`. -/
def chatFolderOf (f : VFile) : String :=
  let pathParts := jsSplit '/' f.webkitRelativePath
  if pathParts.length < 2 then ""
  else pathParts.getD (pathParts.length - 2) ""

/-- Model of `validateFolder`: the three checks in source order; on success
the returned `validFiles` is the entire input file array.  (The source binds
`messageFiles` and `chatFolder` to local constants; they are written out
here, which changes nothing.) -/
def validateFolder (files : List VFile) : Except FolderError FolderValidation :=
  if (files.filter (fun f => isMessageFileName f.name)).isEmpty then
    .error .noMessageFiles
  else if !files.any hasMediaParent then .error .noMediaFolders
  else if chatFolderOf
      ((files.filter (fun f => isMessageFileName f.name)).headD ⟨"", ""⟩) = ""
    then .error .noChatFolder
  else
    .ok ⟨chatFolderOf
      ((files.filter (fun f => isMessageFileName f.name)).headD ⟨"", ""⟩), files⟩

/-- The caller in `folder-upload.tsx`: `validateFolder` inside `try`, and
`onFolderSelected(validFiles, chatFolder)` only on success — a thrown
validation error means ingestion is never started (`none`). -/
def handleFolderSelect (files : List VFile) : Option (List VFile × String) :=
  match validateFolder files with
  | .ok r => some (r.validFiles, r.chatFolder)
  | .error _ => none

/-! ## Supporting lemmas about the pipeline -/

theorem fileMessages_of_not_good {f : MFile} (h : goodFile f = false) :
    fileMessages f = [] := by
  unfold goodFile at h
  unfold fileMessages
  cases hb : f.parsed.bind (·.messages) with
  | none => rfl
  | some msgs => rw [hb] at h; simp at h

theorem collectMessages_filter_good (fs : List MFile) :
    collectMessages (fs.filter goodFile) = collectMessages fs := by
  induction fs with
  | nil => rfl
  | cons f fs ih =>
    cases hg : goodFile f
    · have hf : List.filter goodFile (f :: fs) = List.filter goodFile fs := by
        simp [List.filter_cons, hg]
      rw [hf, ih]
      show collectMessages fs = fileMessages f ++ collectMessages fs
      rw [fileMessages_of_not_good hg, List.nil_append]
    · have hf : List.filter goodFile (f :: fs) = f :: List.filter goodFile fs := by
        simp [List.filter_cons, hg]
      rw [hf]
      show fileMessages f ++ collectMessages (List.filter goodFile fs) =
        fileMessages f ++ collectMessages fs
      rw [ih]

theorem mem_enrichFrom {name : String} {m : Message} :
    ∀ {i : Nat} {msgs : List RawMsg}, m ∈ enrichFrom name i msgs →
      ∃ k, i ≤ k ∧ m.id = mkId name k := by
  intro i msgs
  induction msgs generalizing i with
  | nil => intro h; cases h
  | cons r rs ih =>
    intro h
    rcases List.mem_cons.mp h with h | h
    · exact ⟨i, le_refl i, by rw [h]; rfl⟩
    · obtain ⟨k, hk, hid⟩ := ih h
      exact ⟨k, by omega, hid⟩

theorem pairwise_ne_enrichFrom {name : String} {i : Nat} {msgs : List RawMsg} :
    (enrichFrom name i msgs).Pairwise (fun a b => a.id ≠ b.id) := by
  induction msgs generalizing i with
  | nil => exact List.Pairwise.nil
  | cons r rs ih =>
    rw [enrichFrom, List.pairwise_cons]
    refine ⟨?_, ih⟩
    intro b hb heq
    obtain ⟨k, hk, hid⟩ := mem_enrichFrom hb
    rw [hid] at heq
    have := (mkId_inj heq).2
    omega

theorem mem_fileMessages {f : MFile} {m : Message} (h : m ∈ fileMessages f) :
    ∃ k, m.id = mkId f.name k := by
  unfold fileMessages at h
  cases hb : f.parsed.bind (·.messages) with
  | none => rw [hb] at h; cases h
  | some msgs =>
    rw [hb] at h
    obtain ⟨k, _, hid⟩ := mem_enrichFrom h
    exact ⟨k, hid⟩

theorem pairwise_ne_fileMessages {f : MFile} :
    (fileMessages f).Pairwise (fun a b => a.id ≠ b.id) := by
  unfold fileMessages
  cases f.parsed.bind (·.messages) with
  | none => exact List.Pairwise.nil
  | some msgs => exact pairwise_ne_enrichFrom

theorem mem_collectMessages {m : Message} :
    ∀ {fs : List MFile}, m ∈ collectMessages fs →
      ∃ g ∈ fs, ∃ k, m.id = mkId g.name k := by
  intro fs
  induction fs with
  | nil => intro h; cases h
  | cons f fs ih =>
    intro h
    rcases List.mem_append.mp h with h | h
    · obtain ⟨k, hid⟩ := mem_fileMessages h
      exact ⟨f, List.mem_cons_self f fs, k, hid⟩
    · obtain ⟨g, hg, k, hid⟩ := ih h
      exact ⟨g, List.mem_cons_of_mem f hg, k, hid⟩

theorem pairwise_ne_collectMessages {fs : List MFile}
    (h : fs.Pairwise (fun f g => f.name ≠ g.name)) :
    (collectMessages fs).Pairwise (fun a b => a.id ≠ b.id) := by
  induction fs with
  | nil => exact List.Pairwise.nil
  | cons f fs ih =>
    rw [List.pairwise_cons] at h
    rw [collectMessages, List.pairwise_append]
    refine ⟨pairwise_ne_fileMessages, ih h.2, ?_⟩
    intro a ha b hb heq
    obtain ⟨k, hida⟩ := mem_fileMessages ha
    obtain ⟨g, hg, j, hidb⟩ := mem_collectMessages hb
    rw [hida, hidb] at heq
    exact h.1 g hg (mkId_inj heq).1

theorem dateFilter_eq_filter (messages : List Message)
    (startDay endDay : Option Int) :
    dateFilter messages startDay endDay =
      messages.filter (inDateRange startDay endDay) := by
  cases startDay with
  | none =>
    cases endDay with
    | none =>
      simp only [dateFilter, inDateRange]
      rw [(List.filter_congr (fun m _ => by
        simp [inDateRange, Option.all_none]) :
          _ = List.filter (fun _ => true) messages)]
      rw [List.filter_true]
    | some e =>
      simp only [dateFilter, inDateRange]
      exact List.filter_congr (fun m _ => by
        simp [inDateRange, Option.all_none, Option.all_some])
  | some s =>
    cases endDay with
    | none =>
      simp only [dateFilter, inDateRange]
      exact List.filter_congr (fun m _ => by
        simp [inDateRange, Option.all_none, Option.all_some])
    | some e =>
      simp only [dateFilter, inDateRange]
      rw [List.filter_filter]
      exact List.filter_congr (fun m _ => by
        simp [inDateRange, Option.all_none, Option.all_some, Bool.and_comm])

theorem filteredMessages_eq_filter (messages : List Message)
    (searchTerm : String) (startDay endDay : Option Int) :
    filteredMessages messages searchTerm startDay endDay =
      messages.filter
        (fun m => matchesQuery searchTerm m && inDateRange startDay endDay m) := by
  unfold filteredMessages textFilter matchesQuery
  by_cases ht : jsTrim searchTerm = ""
  · rw [if_pos ht, dateFilter_eq_filter]
    exact List.filter_congr (fun m _ => by simp [ht])
  · rw [if_neg ht, dateFilter_eq_filter, List.filter_filter]
    exact List.filter_congr (fun m _ => by simp [ht, Bool.and_comm])

/-! ## The claims -/

/-- C1: for every input list of message files, the collection returned by
`processMessageFiles` is sorted non-decreasing by timestamp: for every index
`i` with `i + 1` in range,
`result[i].timestamp_ms ≤ result[i + 1].timestamp_ms`. -/
theorem claim1_sorted_by_timestamp (files : List MFile) (i : Nat)
    (h : i + 1 < (processMessageFiles files).length) :
    ((processMessageFiles files).get ⟨i, Nat.lt_of_succ_lt h⟩).timestamp_ms ≤
      ((processMessageFiles files).get ⟨i + 1, h⟩).timestamp_ms := by
  have hs : List.Sorted (keyLe (fun m : Message => m.timestamp_ms))
      (processMessageFiles files) :=
    sortByKey_sorted (fun m : Message => m.timestamp_ms)
      (collectMessages (sortFilesByNum
        (files.filter (fun f => isMessageFileName f.name))))
  exact hs.rel_get_of_lt (Fin.mk_lt_mk.mpr (Nat.lt_succ_self i))

/-- Witness for C1 at a concrete two-message archive (the two messages
arrive in reverse chronological order and are sorted). -/
def c1File : MFile :=
  ⟨"message_1.json", some ⟨some [⟨"alice", 100, none⟩, ⟨"bob", 50, none⟩]⟩⟩

theorem claim1_sorted_by_timestamp_witness :
    0 + 1 < (processMessageFiles [c1File]).length ∧
    ((processMessageFiles [c1File]).get ⟨0, by decide⟩).timestamp_ms ≤
      ((processMessageFiles [c1File]).get ⟨0 + 1, by decide⟩).timestamp_ms :=
  ⟨by decide, claim1_sorted_by_timestamp [c1File] 0 (by decide)⟩

/-- C2 counterexample input: `"9message_1.json"` matches the message-file
test `/message_\d+\.json$/` with numeric SUFFIX 1, but its FIRST digit run
is `"9"`. -/
def c2File1 : MFile := ⟨"9message_1.json", some ⟨some [⟨"alice", 100, none⟩]⟩⟩

/-- C2 counterexample input: numeric suffix (= first digit run) 2, with a
message whose timestamp ties `c2File1`'s. -/
def c2File2 : MFile := ⟨"message_2.json", some ⟨some [⟨"bob", 100, none⟩]⟩⟩

/-- C2 is false as stated: the two files have numeric suffixes 1 < 2 and
their single messages have equal timestamps, yet the record from the
suffix-1 file appears strictly AFTER the record from the suffix-2 file,
because the code sorts files by the value of the first digit run in the
name (9 for `"9message_1.json"`), not by the numeric suffix. -/
theorem claim2_counterexample :
    List.indexOf "message_2.json_0"
        ((processMessageFiles [c2File1, c2File2]).map (·.id)) <
      List.indexOf "9message_1.json_0"
        ((processMessageFiles [c2File1, c2File2]).map (·.id)) ∧
    (processMessageFiles [c2File1, c2File2]).map (·.id) =
      ["message_2.json_0", "9message_1.json_0"] := by decide

/-- C2 (amended): files are processed in ascending order of the number
formed by the FIRST digit run of the file name (`fileNum`; for conventional
names `message_N.json`, whose only digits are the suffix, this is the
numeric suffix), and the final sort is stable over this processing order:
for every timestamp value `t`, the equal-timestamp records appear in the
output exactly in the order produced by processing the sorted files, which
preserves in-file array order. -/
theorem claim2_stable_over_processing_order (files : List MFile) (t : Int) :
    (processMessageFiles files).filter (fun m => m.timestamp_ms == t) =
      (collectMessages (sortFilesByNum
        (files.filter (fun f => isMessageFileName f.name)))).filter
        (fun m => m.timestamp_ms == t) ∧
    (sortFilesByNum (files.filter (fun f => isMessageFileName f.name))).Pairwise
      (fun a b => fileNum a ≤ fileNum b) := by
  constructor
  · exact filter_key_sortByKey (fun m : Message => m.timestamp_ms) t
      (collectMessages (sortFilesByNum
        (files.filter (fun f => isMessageFileName f.name))))
  · have hs := sortByKey_sorted (fun f : MFile => (fileNum f : Int))
      (files.filter (fun f => isMessageFileName f.name))
    exact hs.imp (fun hab => by
      have : ((fileNum _ : Nat) : Int) ≤ ((fileNum _ : Nat) : Int) := hab
      exact_mod_cast this)

/-- C3: whole-word search for `"cat"` matches a message whose content is
`"cat sat"` but not one whose content is `"concatenate"`, while substring
search (the `SearchBar` source's `includes`-based match) matches both.
`msgMatchesWholeWord` is modelled from the spec (word-boundary-bounded
occurrence of the literally-taken, lowercased query): the whole-word toggle
is documented in the repository README but absent from the provided
`SearchBar` source. -/
theorem claim3_whole_word_matching :
    msgMatchesWholeWord "cat" ⟨"m1", "sender", 0, some "cat sat"⟩ = true ∧
    msgMatchesWholeWord "cat" ⟨"m2", "sender", 0, some "concatenate"⟩ = false ∧
    msgMatchesTerm "cat" ⟨"m1", "sender", 0, some "cat sat"⟩ = true ∧
    msgMatchesTerm "cat" ⟨"m2", "sender", 0, some "concatenate"⟩ = true := by
  decide

/-- C4: the search-result list shown for display never exceeds 50 entries,
while the filtered collection handed to the renderer (`onFilterChange`) is
the full, non-truncated list with both the text query and the date range
applied. -/
theorem claim4_results_bounded_filter_full (messages : List Message)
    (searchTerm : String) (startDay endDay : Option Int) :
    (searchResults messages searchTerm startDay endDay).length ≤ 50 ∧
    filteredMessages messages searchTerm startDay endDay =
      messages.filter
        (fun m => matchesQuery searchTerm m && inDateRange startDay endDay m) := by
  refine ⟨?_, filteredMessages_eq_filter messages searchTerm startDay endDay⟩
  unfold searchResults
  by_cases h : jsTrim searchTerm = ""
  · rw [if_pos h]
    simp
  · rw [if_neg h]
    exact List.length_take_le 50 _

/-- C5: the date filter keeps exactly the messages whose timestamp lies in
the inclusive interval `[start-of-day(startDate), end-of-day(endDate)]`,
with an absent bound leaving that side unconstrained; in particular with
`start = end = day d` exactly the messages with timestamp in
`[d 00:00:00.000, d 23:59:59.999]` (i.e. `[dayStartMs d, dayStartMs d +
86399999]`) are kept.  Dates are epoch-day numbers;
`new Date("YYYY-MM-DD").getTime()` is UTC midnight `dayStartMs d`. -/
theorem claim5_date_filter_inclusive (messages : List Message)
    (startDay endDay : Option Int) (d : Int) :
    dateFilter messages startDay endDay =
      messages.filter (inDateRange startDay endDay) ∧
    dateFilter messages (some d) (some d) =
      messages.filter (fun m =>
        decide (dayStartMs d ≤ m.timestamp_ms ∧
          m.timestamp_ms ≤ dayStartMs d + 86399999)) := by
  refine ⟨dateFilter_eq_filter messages startDay endDay, ?_⟩
  rw [dateFilter_eq_filter]
  refine List.filter_congr (fun m _ => ?_)
  simp only [inDateRange, Option.all_some, dayEndMs, dayStartMs, msPerDay,
    Bool.decide_and]
  have he : (m.timestamp_ms ≤ d * 86400000 + 86400000 - 1) ↔
      (m.timestamp_ms ≤ d * 86400000 + 86399999) := by omega
  rw [(decide_eq_decide.mpr he :
    decide (m.timestamp_ms ≤ d * 86400000 + 86400000 - 1) =
      decide (m.timestamp_ms ≤ d * 86400000 + 86399999))]

/-- C6 counterexample input: a selected file set may contain two distinct
files with the same base name (e.g. the same chat folder name under two
different parent directories), and the identifier is built from the base
name only. -/
def c6File1 : MFile := ⟨"message_1.json", some ⟨some [⟨"alice", 1, none⟩]⟩⟩

/-- Second file with the same base name as `c6File1`. -/
def c6File2 : MFile := ⟨"message_1.json", some ⟨some [⟨"bob", 2, none⟩]⟩⟩

/-- C6 is false as stated: two distinct input files with the same name
produce colliding identifiers (`name_index` depends only on the base file
name and the in-file index). -/
theorem claim6_counterexample :
    ¬ (processMessageFiles [c6File1, c6File2]).Pairwise
        (fun a b => a.id ≠ b.id) ∧
    (processMessageFiles [c6File1, c6File2]).map (·.id) =
      ["message_1.json_0", "message_1.json_0"] := by
  decide

/-- C6 (amended): if the input files have pairwise distinct names, the
identifiers of the enriched messages returned by `processMessageFiles` are
pairwise distinct.  (The index numeral is the maximal trailing digit run of
the identifier and is preceded by `'_'`, so an identifier determines the
file name and the index.) -/
theorem claim6_unique_ids (files : List MFile)
    (h : files.Pairwise (fun f g => f.name ≠ g.name)) :
    (processMessageFiles files).Pairwise (fun a b => a.id ≠ b.id) := by
  have h₁ : (files.filter (fun f => isMessageFileName f.name)).Pairwise
      (fun f g => f.name ≠ g.name) := h.filter _
  have h₂ : (sortFilesByNum (files.filter (fun f => isMessageFileName f.name))).Pairwise
      (fun f g => f.name ≠ g.name) :=
    ((sortByKey_perm (fun f : MFile => (fileNum f : Int))
        (files.filter (fun f => isMessageFileName f.name))).pairwise_iff
      (fun hxy => Ne.symm hxy)).mpr h₁
  have h₃ := pairwise_ne_collectMessages h₂
  exact ((sortByKey_perm (fun m : Message => m.timestamp_ms)
      (collectMessages (sortFilesByNum
        (files.filter (fun f => isMessageFileName f.name))))).pairwise_iff
    (fun hxy => Ne.symm hxy)).mpr h₃

/-- Witness input for C6: two well-formed files with distinct names. -/
def c6w1 : MFile := ⟨"message_1.json", some ⟨some [⟨"alice", 5, none⟩]⟩⟩

/-- Witness input for C6, second file. -/
def c6w2 : MFile := ⟨"message_2.json", some ⟨some [⟨"bob", 3, none⟩]⟩⟩

theorem claim6_unique_ids_witness :
    ([c6w1, c6w2] : List MFile).Pairwise (fun f g => f.name ≠ g.name) ∧
    (processMessageFiles [c6w1, c6w2]).Pairwise (fun a b => a.id ≠ b.id) :=
  ⟨by decide, claim6_unique_ids [c6w1, c6w2] (by decide)⟩

/-- C7 counterexample input: the four UTF-8 bytes of the JSON text `"é"`
(a quoted e-acute). -/
def c7File : ByteFile := ⟨[0x22, 0xC3, 0xA9, 0x22]⟩

/-- C7 is false as stated: with chunk size 2, the slice boundary splits the
two-byte encoding of `é`; each chunk is decoded independently by
`Blob.text()`, so the two halves each become U+FFFD and the concatenated
text differs from the single-read text.  Both texts are valid JSON string
literals, so `JSON.parse` succeeds on both with different values — shown
here by instantiating the parse function with `some` (any parse function
applied to different texts can differ; this one does). -/
theorem claim7_counterexample :
    readJsonInChunks (fun t => some t) c7File 2 ≠
      readJsonSingle (fun t => some t) c7File ∧
    chunkedText c7File.bytes 2 = ['"', replChar, replChar, '"'] ∧
    utf8DecodeRepl c7File.bytes = ['"', 'é', '"'] := by
  decide

/-- C7 (amended): for every file all of whose bytes are ASCII (so that no
chunk boundary can split a multi-byte encoded character — the case for
Facebook's `\uXXXX`-escaped JSON exports) and every positive chunk size,
chunked reading yields the same parse result as a single-shot read for
every parse function, and it fails (returns `none`, the model of a
propagated `JSON.parse` exception) exactly when the parse function fails on
the whole file's text. -/
theorem claim7_chunked_read_equiv {T : Type} (parse : List Char → Option T)
    (file : ByteFile) (chunkSize : Nat) (hcs : 0 < chunkSize)
    (hascii : ∀ b ∈ file.bytes, b ≤ 0x7F) :
    readJsonInChunks parse file chunkSize = readJsonSingle parse file ∧
    (readJsonInChunks parse file chunkSize = none ↔
      parse (utf8DecodeRepl file.bytes) = none) := by
  have ht : chunkedText file.bytes chunkSize = utf8DecodeRepl file.bytes :=
    chunkedText_ascii hcs hascii
  unfold readJsonInChunks readJsonSingle
  rw [ht]
  exact ⟨rfl, Iff.rfl⟩

theorem claim7_chunked_read_equiv_witness :
    0 < 1 ∧ (∀ b ∈ (ByteFile.mk [104, 105]).bytes, b ≤ 0x7F) ∧
    (readJsonInChunks (fun t => some t) ⟨[104, 105]⟩ 1 =
        readJsonSingle (fun t => some t) ⟨[104, 105]⟩ ∧
      (readJsonInChunks (fun t => some t) ⟨[104, 105]⟩ 1 = none ↔
        (fun t => some t) (utf8DecodeRepl (ByteFile.mk [104, 105]).bytes) = none)) :=
  ⟨by decide, by decide,
    claim7_chunked_read_equiv (fun t => some t) ⟨[104, 105]⟩ 1
      (by decide) (by decide)⟩

/-- C8: a message file that fails to parse or has no `messages` array is
skipped without aborting: the returned collection is exactly what the
remaining well-formed files produce, so no other file's records are lost. -/
theorem claim8_bad_file_skipped (files : List MFile) :
    processMessageFiles files = processMessageFiles (files.filter goodFile) := by
  unfold processMessageFiles sortFilesByNum sortByTimestamp
  rw [List.filter_comm]
  rw [← filter_sortByKey (fun f : MFile => (fileNum f : Int)) goodFile
    (files.filter (fun f => isMessageFileName f.name))]
  rw [collectMessages_filter_good]

/-- C9: on a file set that contains at least one file matching the
message-file naming convention but no file whose immediate parent directory
is a media folder, `validateFolder` fails with the "no media folders"
condition (not "no message files"), and the caller then never starts
ingestion (`handleFolderSelect` produces no folder selection). -/
theorem claim9_no_media_folders (files : List VFile)
    (hmsg : files.any (fun f => isMessageFileName f.name) = true)
    (hmedia : files.any hasMediaParent = false) :
    validateFolder files = .error .noMediaFolders ∧
    handleFolderSelect files = none := by
  have hne : (files.filter (fun f => isMessageFileName f.name)).isEmpty = false := by
    obtain ⟨f, hf, hp⟩ := List.any_eq_true.mp hmsg
    have hmem : f ∈ files.filter (fun f => isMessageFileName f.name) :=
      List.mem_filter.mpr ⟨hf, hp⟩
    cases hfe : (files.filter (fun f => isMessageFileName f.name)).isEmpty
    · rfl
    · rw [List.isEmpty_iff] at hfe
      rw [hfe] at hmem
      cases hmem
  have hval : validateFolder files = .error .noMediaFolders := by
    unfold validateFolder
    simp [hne, hmedia]
  exact ⟨hval, by unfold handleFolderSelect; rw [hval]⟩

/-- Witness input for C9: one message file, no media parent anywhere. -/
def c9File : VFile := ⟨"message_1.json", "chat/message_1.json"⟩

theorem claim9_no_media_folders_witness :
    ([c9File] : List VFile).any (fun f => isMessageFileName f.name) = true ∧
    ([c9File] : List VFile).any hasMediaParent = false ∧
    (validateFolder [c9File] = .error .noMediaFolders ∧
      handleFolderSelect [c9File] = none) :=
  ⟨by decide, by decide, claim9_no_media_folders [c9File] (by decide) (by decide)⟩

/-- C10: whenever `validateFolder` succeeds, the returned `validFiles` is
exactly the entire input file list in its original order — validation never
filters the set it returns. -/
theorem claim10_valid_files_whole_input (files : List VFile)
    (r : FolderValidation) (h : validateFolder files = .ok r) :
    r.validFiles = files := by
  unfold validateFolder at h
  by_cases h₁ : (files.filter (fun f => isMessageFileName f.name)).isEmpty = true
  · rw [if_pos h₁] at h
    exact Except.noConfusion h
  · rw [if_neg h₁] at h
    by_cases h₂ : (!files.any hasMediaParent) = true
    · rw [if_pos h₂] at h
      exact Except.noConfusion h
    · rw [if_neg h₂] at h
      by_cases h₃ : chatFolderOf ((files.filter
          (fun f => isMessageFileName f.name)).headD ⟨"", ""⟩) = ""
      · rw [if_pos h₃] at h
        exact Except.noConfusion h
      · rw [if_neg h₃] at h
        injection h with h'
        rw [← h']

/-- Witness input for C10: a valid folder (message file plus a photos
entry). -/
def c10Files : List VFile :=
  [⟨"message_1.json", "chat/message_1.json"⟩, ⟨"x.jpg", "chat/photos/x.jpg"⟩]

theorem claim10_valid_files_whole_input_witness :
    validateFolder c10Files = .ok ⟨"chat", c10Files⟩ ∧
    (FolderValidation.mk "chat" c10Files).validFiles = c10Files :=
  ⟨rfl, claim10_valid_files_whole_input c10Files ⟨"chat", c10Files⟩ rfl⟩

end FBV
